import Mathlib

/-!
Verification of the box/atom field-layout core of the medooze media server's
bundled mp4v2 library, centred on the AV1 codec-configuration box
(`src/external/mp4v2/lib/src/atom_av1C.cpp`).

The repository source declares the `av1C` layout (14 bitfield properties and
one raw-bytes property) and its `Generate` defaults.  The generic property
engine (bit-level reader/writer, decode/encode driver, by-name accessors) is
not part of the excerpted source, so it is modelled from the specification.
-/

namespace Mp4

/-- Length mode of a raw-bytes field: a fixed byte count, or the remainder of
the enclosing box's payload. -/
inductive LengthMode
  | fixed (n : Nat)
  | remainder
deriving DecidableEq, Repr

/-- Kind of a field: a bit-packed unsigned integer of a given width, or a raw
byte run. -/
inductive FieldKind
  | bitfield (width : Nat)
  | rawBytes (mode : LengthMode)
deriving DecidableEq, Repr

/-- A named field descriptor. -/
structure FieldSpec where
  name : String
  kind : FieldKind
deriving DecidableEq, Repr

/-- A field value: an unsigned integer (bitfield) or a byte sequence
(raw bytes; each entry is a byte, 0..255). -/
inductive FieldValue
  | uint (v : Nat)
  | bytes (bs : List Nat)
deriving DecidableEq, Repr

/-- Error taxonomy of the core. -/
inductive Err
  | outOfRange
  | unexpectedEndOfInput
  | truncatedInput
  | misalignedAccess
  | unknownField
  | typeMismatch
deriving DecidableEq, Repr

/-- The `w` low-order bits of `v`, most significant first. -/
def toBits : Nat → Nat → List Bool
  | 0, _ => []
  | w + 1, v => toBits w (v / 2) ++ [v % 2 == 1]

/-- Interpret a bit list (MSB first) as an unsigned integer. -/
def fromBits (bs : List Bool) : Nat :=
  bs.foldl (fun acc b => 2 * acc + (if b then 1 else 0)) 0

/-- The 8 bits of one byte, MSB first. -/
def byteToBits (b : Nat) : List Bool := toBits 8 b

/-- Flatten a byte sequence into its bit stream. -/
def bytesToBits (bs : List Nat) : List Bool := (bs.map byteToBits).flatten

/-- Regroup a bit stream into bytes, 8 bits at a time (a trailing group of
fewer than 8 bits, which cannot arise from a byte-aligned layout, is kept
as one byte). -/
def bitsToBytes : List Bool → List Nat
  | [] => []
  | b0 :: b1 :: b2 :: b3 :: b4 :: b5 :: b6 :: b7 :: rest =>
      fromBits [b0, b1, b2, b3, b4, b5, b6, b7] :: bitsToBytes rest
  | bs => [fromBits bs]

/-- Modelled from the spec: `write_bits` appends `width` low-order bits of
`value` to the output bit stream; fails with `OutOfRange` if `value` needs
more than `width` bits (strict validation, per spec §4.1). -/
def write_bits (st : List Bool) (value width : Nat) : Except Err (List Bool) :=
  if value < 2 ^ width then .ok (st ++ toBits width value) else .error .outOfRange

/-- Modelled from the spec: `read_bits` consumes `width` bits from the front
of the remaining stream, returning their unsigned value and the rest; fails
with `UnexpectedEndOfInput` if fewer than `width` bits remain. -/
def read_bits (bits : List Bool) (width : Nat) : Except Err (Nat × List Bool) :=
  if width ≤ bits.length then .ok (fromBits (bits.take width), bits.drop width)
  else .error .unexpectedEndOfInput

/-- Modelled from the spec: `align_to_byte` fails with `MisalignedAccess`
when the cursor (absolute bit position) is not on a byte boundary. -/
def align_to_byte (pos : Nat) : Except Err Unit :=
  if pos % 8 = 0 then .ok () else .error .misalignedAccess

/-- Modelled from the spec: the descriptor-construction-time checks of
spec §3/§4.2, tracked along the absolute bit position: every bitfield width
is 1..32; every raw-bytes field starts byte-aligned; a `Remainder` raw-bytes
field is the last field; the layout's total bit length is a whole number of
bytes. -/
def validFieldsAux : Nat → List FieldSpec → Bool
  | pos, [] => pos % 8 == 0
  | pos, ⟨_, .bitfield w⟩ :: rest =>
      (1 ≤ w && w ≤ 32) && validFieldsAux (pos + w) rest
  | pos, ⟨_, .rawBytes (.fixed n)⟩ :: rest =>
      (pos % 8 == 0) && validFieldsAux (pos + 8 * n) rest
  | pos, ⟨_, .rawBytes .remainder⟩ :: rest =>
      (pos % 8 == 0) && rest.isEmpty

/-- A layout descriptor is accepted at construction iff the static checks
pass starting from bit position 0. -/
def validLayout (fields : List FieldSpec) : Bool := validFieldsAux 0 fields

/-- Minimum number of bits of input the layout requires for its fixed-size
fields (a `Remainder` field may be empty and requires none). -/
def minBits : List FieldSpec → Nat
  | [] => 0
  | ⟨_, .bitfield w⟩ :: rest => w + minBits rest
  | ⟨_, .rawBytes (.fixed n)⟩ :: rest => 8 * n + minBits rest
  | ⟨_, .rawBytes .remainder⟩ :: rest => minBits rest

/-- Does a value fit a field's declared kind and width? Bitfield values must
fit the width; raw-byte values must be byte sequences (of the declared
length, for `Fixed`) with every entry a byte. -/
def fitsKind : FieldKind → FieldValue → Bool
  | .bitfield w, .uint v => v < 2 ^ w
  | .rawBytes (.fixed n), .bytes bs => bs.length == n && bs.all (· < 256)
  | .rawBytes .remainder, .bytes bs => bs.all (· < 256)
  | _, _ => false

/-- A value list is valid for a field list when it matches it pointwise. -/
def validValues : List FieldSpec → List FieldValue → Bool
  | [], [] => true
  | f :: fs, v :: vs => fitsKind f.kind v && validValues fs vs
  | _, _ => false

/-- A box instance: a type code, a layout descriptor, and one value per
field. -/
structure Box where
  type_code : String
  layout : List FieldSpec
  values : List FieldValue
deriving DecidableEq, Repr

/-- Construction-time default for a field: integer properties start at 0,
byte properties start empty (as in the `MP4Av1CAtom` constructor, which
builds each `MP4BitfieldProperty` with no initial value and the
`MP4BytesProperty` with size 0). -/
def defaultValue : FieldKind → FieldValue
  | .bitfield _ => .uint 0
  | .rawBytes _ => .bytes []

/-- Construct a box instance, eagerly filling one default value per field. -/
def mkBox (tc : String) (fields : List FieldSpec) : Box :=
  ⟨tc, fields, fields.map (fun f => defaultValue f.kind)⟩

/-- The `av1C` layout declared by the `MP4Av1CAtom` constructor in
`atom_av1C.cpp`: 14 bitfields followed by the `configOBUs` byte run. -/
def av1Fields : List FieldSpec :=
  [⟨"marker", .bitfield 1⟩,
   ⟨"version", .bitfield 7⟩,
   ⟨"seq_profile", .bitfield 3⟩,
   ⟨"seq_level_idx_0", .bitfield 5⟩,
   ⟨"seq_tier_0", .bitfield 1⟩,
   ⟨"high_bitdepth", .bitfield 1⟩,
   ⟨"twelve_bit", .bitfield 1⟩,
   ⟨"monochrome", .bitfield 1⟩,
   ⟨"chroma_subsampling_x", .bitfield 1⟩,
   ⟨"chroma_subsampling_y", .bitfield 1⟩,
   ⟨"chroma_sample_position", .bitfield 2⟩,
   ⟨"reserved ", .bitfield 3⟩,
   ⟨"initial_presentation_delay_present", .bitfield 1⟩,
   ⟨"initial_presentation_delay_minus_one_or_reserved", .bitfield 4⟩,
   ⟨"configOBUs", .rawBytes .remainder⟩]

/-- The freshly constructed AV1-configuration box. -/
def MP4Av1CAtom : Box := mkBox "av1C" av1Fields

/-- The value updates performed by `MP4Av1CAtom::Generate`: property 0
(marker) and property 1 (version) are set to 1, properties 2..13 to 0, by
index, in source order. -/
def genVals (l : List FieldValue) : List FieldValue :=
  ((((((((((((((l.set 0 (.uint 1)).set 1 (.uint 1)).set 2
    (.uint 0)).set 3 (.uint 0)).set 4 (.uint 0)).set 5 (.uint 0)).set 6
    (.uint 0)).set 7 (.uint 0)).set 8 (.uint 0)).set 9 (.uint 0)).set 10
    (.uint 0)).set 11 (.uint 0)).set 12 (.uint 0)).set 13 (.uint 0))

/-- `MP4Av1CAtom::Generate` from `atom_av1C.cpp` (default generation). -/
def Generate (b : Box) : Box := { b with values := genVals b.values }

/-- Modelled from the spec: the decode walk of spec §4.2. Walks the layout
in order over the remaining bit stream `bits` at absolute bit position
`pos`; bitfields consume their width (an exhausted input is reported as
`TruncatedInput`), raw-byte fields first require byte alignment, then
consume a fixed byte count or the whole remainder. Returns the decoded
values, the leftover bits, and the final bit position. -/
def decodeFields : List FieldSpec → List Bool → Nat →
    Except Err (List FieldValue × List Bool × Nat)
  | [], bits, pos => .ok ([], bits, pos)
  | ⟨_, .bitfield w⟩ :: rest, bits, pos =>
      if w ≤ bits.length then
        match decodeFields rest (bits.drop w) (pos + w) with
        | .ok (vs, b2, p2) => .ok (.uint (fromBits (bits.take w)) :: vs, b2, p2)
        | .error e => .error e
      else .error .truncatedInput
  | ⟨_, .rawBytes (.fixed n)⟩ :: rest, bits, pos =>
      match align_to_byte pos with
      | .ok _ =>
        if 8 * n ≤ bits.length then
          match decodeFields rest (bits.drop (8 * n)) (pos + 8 * n) with
          | .ok (vs, b2, p2) =>
              .ok (.bytes (bitsToBytes (bits.take (8 * n))) :: vs, b2, p2)
          | .error e => .error e
        else .error .truncatedInput
      | .error e => .error e
  | ⟨_, .rawBytes .remainder⟩ :: rest, bits, pos =>
      match align_to_byte pos with
      | .ok _ =>
        match decodeFields rest [] (pos + bits.length) with
        | .ok (vs, b2, p2) => .ok (.bytes (bitsToBytes bits) :: vs, b2, p2)
        | .error e => .error e
      | .error e => .error e

/-- Modelled from the spec: box-level decode. Decodes the byte slice
`input` against the box's layout; on success overwrites the box's values
and returns the number of bytes consumed. -/
def decode (b : Box) (input : List Nat) : Except Err (Box × Nat) :=
  match decodeFields b.layout (bytesToBits input) 0 with
  | .ok (vs, _, pos) => .ok ({ b with values := vs }, pos / 8)
  | .error e => .error e

/-- The box state after a decode attempt: the new state on success, the
unchanged box on failure (decode is all-or-nothing). -/
def decodeInto (b : Box) (input : List Nat) : Box :=
  match decode b input with
  | .ok (b2, _) => b2
  | .error _ => b

/-- Modelled from the spec: the encode walk of spec §4.2. Walks the layout
in order from absolute bit position `pos`, emitting each field's bits;
bitfield values that no longer fit their width fail with `OutOfRange`;
raw-byte fields require byte alignment; a value list that does not match
the layout pointwise fails with `TypeMismatch`. -/
def encodeFields : List FieldSpec → List FieldValue → Nat →
    Except Err (List Bool)
  | [], [], _ => .ok []
  | ⟨_, .bitfield w⟩ :: rest, .uint v :: vs, pos =>
      if v < 2 ^ w then
        match encodeFields rest vs (pos + w) with
        | .ok bs => .ok (toBits w v ++ bs)
        | .error e => .error e
      else .error .outOfRange
  | ⟨_, .rawBytes _⟩ :: rest, .bytes bsv :: vs, pos =>
      match align_to_byte pos with
      | .ok _ =>
        match encodeFields rest vs (pos + 8 * bsv.length) with
        | .ok bs => .ok (bytesToBits bsv ++ bs)
        | .error e => .error e
      | .error e => .error e
  | _, _, _ => .error .typeMismatch

/-- Modelled from the spec: box-level encode; emits the bit-packed bytes of
the box's current values. -/
def encode (b : Box) : Except Err (List Nat) :=
  match encodeFields b.layout b.values 0 with
  | .ok bits => .ok (bitsToBytes bits)
  | .error e => .error e

/-- Modelled from the spec: get-by-name, a linear scan of the layout; fails
with `UnknownField` when the name is absent. -/
def getByName (b : Box) (name : String) : Except Err FieldValue :=
  match b.layout.findIdx? (fun f => f.name == name) with
  | some i =>
      match b.values.get? i with
      | some v => .ok v
      | none => .error .unknownField
  | none => .error .unknownField

/-- Modelled from the spec: set-by-name; fails with `UnknownField` for an
absent name, `TypeMismatch` for the wrong value variant, and `OutOfRange`
for an oversized bitfield value. -/
def setByName (b : Box) (name : String) (v : FieldValue) : Except Err Box :=
  match b.layout.findIdx? (fun f => f.name == name) with
  | none => .error .unknownField
  | some i =>
      match b.layout.get? i with
      | none => .error .unknownField
      | some fs =>
          match fs.kind, v with
          | .bitfield w, .uint n =>
              if n < 2 ^ w then .ok { b with values := b.values.set i v }
              else .error .outOfRange
          | .rawBytes _, .bytes _ => .ok { b with values := b.values.set i v }
          | _, _ => .error .typeMismatch

/-- Is a field a bitfield? -/
def isBitfield (f : FieldSpec) : Bool :=
  match f.kind with
  | .bitfield _ => true
  | .rawBytes _ => false

/-- The widths of the bitfield fields of a layout, in order. -/
def bitfieldWidths (fs : List FieldSpec) : List Nat :=
  fs.filterMap fun f =>
    match f.kind with
    | .bitfield w => some w
    | .rawBytes _ => none

/-- Total bit width of the bitfield fields of a layout. -/
def sumWidths (fs : List FieldSpec) : Nat := (bitfieldWidths fs).sum

/-- The box-instance invariant: one value per layout field. -/
def boxInvariant (b : Box) : Prop := b.values.length = b.layout.length

/-- The constant default that `Generate` writes at index `i < 14`. -/
def genDefault (i : Nat) : FieldValue :=
  if i ≤ 1 then .uint 1 else .uint 0

/-- The 14 bitfield descriptors that open the `av1C` layout. -/
def av1HeadFields : List FieldSpec := av1Fields.take 14

/-! ### Theorems -/


theorem toBits_length (w v : Nat) : (toBits w v).length = w := by
  induction w generalizing v with
  | zero => rfl
  | succ w ih => simp [toBits, ih]

theorem fromBits_concat (l : List Bool) (b : Bool) :
    fromBits (l ++ [b]) = 2 * fromBits l + (if b then 1 else 0) := by
  simp [fromBits, List.foldl_append]

theorem fromBits_toBits (w v : Nat) : fromBits (toBits w v) = v % 2 ^ w := by
  induction w generalizing v with
  | zero => simp [toBits, fromBits, Nat.mod_one]
  | succ w ih =>
    rw [toBits, fromBits_concat, ih]
    have h2 : v % 2 = 0 ∨ v % 2 = 1 := Nat.mod_two_eq_zero_or_one v
    have hpow : (2 : Nat) ^ (w + 1) = 2 * 2 ^ w := by ring
    have key : v % 2 ^ (w + 1) = v % 2 + 2 * (v / 2 % 2 ^ w) := by
      rw [hpow, Nat.mod_mul]
    rcases h2 with h | h <;> simp [h] <;> omega

theorem fromBits_toBits_of_lt {w v : Nat} (h : v < 2 ^ w) :
    fromBits (toBits w v) = v := by
  rw [fromBits_toBits, Nat.mod_eq_of_lt h]

theorem toBits_fromBits (l : List Bool) : toBits l.length (fromBits l) = l := by
  induction l using List.reverseRecOn with
  | nil => rfl
  | append_singleton l b ih =>
    rw [fromBits_concat]
    have hlen : (l ++ [b]).length = l.length + 1 := by simp
    rw [hlen, toBits]
    have hb : (if b then 1 else 0) ≤ 1 := by cases b <;> simp
    have hdiv : (2 * fromBits l + (if b then 1 else 0)) / 2 = fromBits l := by
      cases b <;> simp <;> omega
    have hmod : (2 * fromBits l + (if b then 1 else 0)) % 2 = (if b then 1 else 0) := by
      cases b <;> simp <;> omega
    rw [hdiv, hmod, ih]
    cases b <;> simp

theorem fromBits_lt (l : List Bool) : fromBits l < 2 ^ l.length := by
  induction l using List.reverseRecOn with
  | nil => simp [fromBits]
  | append_singleton l b ih =>
    rw [fromBits_concat]
    have : (2 : Nat) ^ (l ++ [b]).length = 2 ^ l.length * 2 := by
      simp [pow_succ]
    rw [this]
    cases b <;> simp <;> omega

theorem byteToBits_length (b : Nat) : (byteToBits b).length = 8 :=
  toBits_length 8 b

theorem bytesToBits_length (bs : List Nat) :
    (bytesToBits bs).length = 8 * bs.length := by
  induction bs with
  | nil => rfl
  | cons b l ih =>
    simp [bytesToBits] at ih ⊢
    rw [byteToBits_length, ih]
    ring

theorem bytesToBits_append (l₁ l₂ : List Nat) :
    bytesToBits (l₁ ++ l₂) = bytesToBits l₁ ++ bytesToBits l₂ := by
  simp [bytesToBits]

theorem bitsToBytes_nil : bitsToBytes [] = [] := rfl

theorem bitsToBytes_cons (bs : List Bool) (h : bs ≠ []) :
    bitsToBytes bs = fromBits (bs.take 8) :: bitsToBytes (bs.drop 8) := by
  rcases bs with _ | ⟨b0, _ | ⟨b1, _ | ⟨b2, _ | ⟨b3, _ | ⟨b4, _ | ⟨b5,
    _ | ⟨b6, _ | ⟨b7, rest⟩⟩⟩⟩⟩⟩⟩⟩ <;>
    simp [bitsToBytes] <;>
    exact absurd rfl h

theorem bitsToBytes_bytesToBits (bs : List Nat) (h : ∀ b ∈ bs, b < 256) :
    bitsToBytes (bytesToBits bs) = bs := by
  induction bs with
  | nil => simpa [bytesToBits] using bitsToBytes_nil
  | cons b l ih =>
    have hb : b < 256 := h b (List.mem_cons_self b l)
    have hcons : bytesToBits (b :: l) = byteToBits b ++ bytesToBits l := by
      simp [bytesToBits]
    have hlen : (byteToBits b).length = 8 := byteToBits_length b
    have hne : byteToBits b ++ bytesToBits l ≠ [] := by
      intro hcontra
      have := congrArg List.length hcontra
      simp [hlen] at this
    rw [hcons, bitsToBytes_cons _ hne]
    have htake : (byteToBits b ++ bytesToBits l).take 8 = byteToBits b := by
      rw [List.take_append_of_le_length (by omega), List.take_of_length_le (by omega)]
    have hdrop : (byteToBits b ++ bytesToBits l).drop 8 = bytesToBits l := by
      rw [List.drop_append_of_le_length (by omega), List.drop_of_length_le (by omega)]
      simp
    rw [htake, hdrop]
    have hfb : fromBits (byteToBits b) = b := by
      have : (256 : Nat) = 2 ^ 8 := by norm_num
      exact fromBits_toBits_of_lt (by omega)
    rw [hfb, ih (fun x hx => h x (List.mem_cons_of_mem b hx))]

theorem bytesToBits_bitsToBytes (bs : List Bool) (h : bs.length % 8 = 0) :
    bytesToBits (bitsToBytes bs) = bs := by
  by_cases hnil : bs = []
  · subst hnil
    simp [bitsToBytes_nil, bytesToBits]
  · have hpos : 0 < bs.length := List.length_pos.mpr hnil
    have h8 : 8 ≤ bs.length := by omega
    rw [bitsToBytes_cons bs hnil]
    have hcons : bytesToBits (fromBits (bs.take 8) :: bitsToBytes (bs.drop 8)) =
        byteToBits (fromBits (bs.take 8)) ++ bytesToBits (bitsToBytes (bs.drop 8)) := by
      simp [bytesToBits]
    rw [hcons]
    have htl : (bs.take 8).length = 8 := by
      rw [List.length_take]
      omega
    have hfirst : byteToBits (fromBits (bs.take 8)) = bs.take 8 := by
      unfold byteToBits
      calc toBits 8 (fromBits (bs.take 8))
          = toBits (bs.take 8).length (fromBits (bs.take 8)) := by rw [htl]
        _ = bs.take 8 := toBits_fromBits _
    have hrest : bytesToBits (bitsToBytes (bs.drop 8)) = bs.drop 8 := by
      apply bytesToBits_bitsToBytes
      rw [List.length_drop]
      omega
    rw [hfirst, hrest, List.take_append_drop]
termination_by bs.length
decreasing_by
  have hpos : 0 < bs.length := List.length_pos.mpr hnil
  simp only [List.length_drop]
  omega

theorem align_to_byte_ok {pos : Nat} (h : pos % 8 = 0) :
    align_to_byte pos = .ok () := by
  simp [align_to_byte, h]

theorem align_to_byte_err {pos : Nat} (h : pos % 8 ≠ 0) :
    align_to_byte pos = .error .misalignedAccess := by
  simp [align_to_byte, h]

theorem decodeFields_ok_length {fields : List FieldSpec} {bits : List Bool}
    {pos : Nat} {vs : List FieldValue} {b2 : List Bool} {p2 : Nat}
    (h : decodeFields fields bits pos = .ok (vs, b2, p2)) :
    vs.length = fields.length := by
  induction fields generalizing bits pos vs b2 p2 with
  | nil =>
    simp [decodeFields] at h
    simp [h.1]
  | cons f rest ih =>
    obtain ⟨name, k⟩ := f
    cases k with
    | bitfield w =>
      simp only [decodeFields] at h
      split at h
      · cases hrec : decodeFields rest (bits.drop w) (pos + w) with
        | ok r =>
          obtain ⟨vs', b2', p2'⟩ := r
          rw [hrec] at h
          simp at h
          obtain ⟨hv, _, _⟩ := h
          subst hv
          simp [ih hrec]
        | error e => rw [hrec] at h; simp at h
      · simp at h
    | rawBytes m =>
      cases m with
      | fixed n =>
        simp only [decodeFields] at h
        split at h
        · split at h
          · cases hrec : decodeFields rest (bits.drop (8 * n)) (pos + 8 * n) with
            | ok r =>
              obtain ⟨vs', b2', p2'⟩ := r
              rw [hrec] at h
              simp at h
              obtain ⟨hv, _, _⟩ := h
              subst hv
              simp [ih hrec]
            | error e => rw [hrec] at h; simp at h
          · simp at h
        · simp at h
      | remainder =>
        simp only [decodeFields] at h
        split at h
        · cases hrec : decodeFields rest [] (pos + bits.length) with
          | ok r =>
            obtain ⟨vs', b2', p2'⟩ := r
            rw [hrec] at h
            simp at h
            obtain ⟨hv, _, _⟩ := h
            subst hv
            simp [ih hrec]
          | error e => rw [hrec] at h; simp at h
        · simp at h

theorem sumWidths_nil : sumWidths [] = 0 := rfl

theorem sumWidths_cons_bitfield (name : String) (w : Nat) (fs : List FieldSpec) :
    sumWidths (⟨name, .bitfield w⟩ :: fs) = w + sumWidths fs := by
  simp [sumWidths, bitfieldWidths]

theorem sumWidths_cons_rawBytes (name : String) (m : LengthMode)
    (fs : List FieldSpec) :
    sumWidths (⟨name, .rawBytes m⟩ :: fs) = sumWidths fs := by
  simp [sumWidths, bitfieldWidths]

/-- Walking a run of bitfields consumes exactly their summed widths and then
continues with the tail of the layout. -/
theorem decode_bitfields (fs : List FieldSpec) (tail : List FieldSpec)
    (bits : List Bool) (pos : Nat)
    (hbf : fs.all isBitfield = true) (hlen : sumWidths fs ≤ bits.length)
    (vs2 : List FieldValue) (b2 : List Bool) (p2 : Nat)
    (htail : decodeFields tail (bits.drop (sumWidths fs)) (pos + sumWidths fs) =
      .ok (vs2, b2, p2)) :
    ∃ vs1, vs1.length = fs.length ∧
      decodeFields (fs ++ tail) bits pos = .ok (vs1 ++ vs2, b2, p2) := by
  revert hbf hlen htail
  induction fs generalizing bits pos with
  | nil =>
    intro _ _ htail
    refine ⟨[], rfl, ?_⟩
    simpa [sumWidths, bitfieldWidths] using htail
  | cons f fs ih =>
    intro hbf hlen htail
    obtain ⟨name, k⟩ := f
    simp only [List.all_cons, Bool.and_eq_true] at hbf
    obtain ⟨hf, hfs⟩ := hbf
    cases k with
    | rawBytes m => simp [isBitfield] at hf
    | bitfield w =>
      rw [sumWidths_cons_bitfield] at hlen htail
      have hw : w ≤ bits.length := by omega
      have hdd : (bits.drop w).drop (sumWidths fs) = bits.drop (w + sumWidths fs) := by
        rw [List.drop_drop]
      have hlen' : sumWidths fs ≤ (bits.drop w).length := by
        rw [List.length_drop]
        omega
      have htail' : decodeFields tail ((bits.drop w).drop (sumWidths fs))
          ((pos + w) + sumWidths fs) = .ok (vs2, b2, p2) := by
        rw [hdd, Nat.add_assoc]
        exact htail
      obtain ⟨vs1, hlen1, hdec⟩ := ih (bits.drop w) (pos + w) hfs hlen' htail'
      refine ⟨.uint (fromBits (bits.take w)) :: vs1, by simp [hlen1], ?_⟩
      simp only [List.cons_append, decodeFields, if_pos hw]
      rw [List.append_eq, hdec]

/-- Static layout validity depends only on the start position modulo 8. -/
theorem validFieldsAux_mod8 (fields : List FieldSpec) :
    ∀ pos pos' : Nat, pos % 8 = pos' % 8 →
      validFieldsAux pos fields = validFieldsAux pos' fields := by
  induction fields with
  | nil => intro pos pos' h; simp [validFieldsAux, h]
  | cons f rest ih =>
    intro pos pos' h
    obtain ⟨name, k⟩ := f
    cases k with
    | bitfield w =>
      simp only [validFieldsAux]
      rw [ih (pos + w) (pos' + w) (by omega)]
    | rawBytes m =>
      cases m with
      | fixed n =>
        simp only [validFieldsAux]
        rw [h, ih (pos + 8 * n) (pos' + 8 * n) (by omega)]
      | remainder =>
        simp only [validFieldsAux]
        rw [h]

/-- Decoding never reports `MisalignedAccess` on a layout that passed the
construction-time checks. -/
theorem decodeFields_no_misaligned (fields : List FieldSpec) :
    ∀ (bits : List Bool) (pos : Nat), validFieldsAux pos fields = true →
      decodeFields fields bits pos ≠ .error .misalignedAccess := by
  induction fields with
  | nil => intro bits pos _ h; simp [decodeFields] at h
  | cons f rest ih =>
    intro bits pos hv h
    obtain ⟨name, k⟩ := f
    cases k with
    | bitfield w =>
      simp only [validFieldsAux, Bool.and_eq_true] at hv
      simp only [decodeFields] at h
      split at h
      · cases hrec : decodeFields rest (bits.drop w) (pos + w) with
        | ok r => rw [hrec] at h; obtain ⟨_, _, _⟩ := r; simp at h
        | error e =>
          rw [hrec] at h
          simp at h
          exact ih (bits.drop w) (pos + w) hv.2 (by rw [hrec, h])
      · simp at h
    | rawBytes m =>
      cases m with
      | fixed n =>
        simp only [validFieldsAux, Bool.and_eq_true, beq_iff_eq] at hv
        simp only [decodeFields, align_to_byte_ok hv.1] at h
        split at h
        · cases hrec : decodeFields rest (bits.drop (8 * n)) (pos + 8 * n) with
          | ok r => rw [hrec] at h; obtain ⟨_, _, _⟩ := r; simp at h
          | error e =>
            rw [hrec] at h
            simp at h
            exact ih (bits.drop (8 * n)) (pos + 8 * n) hv.2 (by rw [hrec, h])
        · simp at h
      | remainder =>
        simp only [validFieldsAux, Bool.and_eq_true, beq_iff_eq] at hv
        simp only [decodeFields, align_to_byte_ok hv.1] at h
        cases hrec : decodeFields rest [] (pos + bits.length) with
        | ok r => rw [hrec] at h; obtain ⟨_, _, _⟩ := r; simp at h
        | error e =>
          have hrest : rest = [] := by
            have := hv.2
            cases rest with
            | nil => rfl
            | cons a l => simp [List.isEmpty] at this
          subst hrest
          simp [decodeFields] at hrec

/-- Encoding never reports `MisalignedAccess` on a layout that passed the
construction-time checks, whatever value list it is handed. -/
theorem encodeFields_no_misaligned (fields : List FieldSpec) :
    ∀ (vs : List FieldValue) (pos : Nat), validFieldsAux pos fields = true →
      encodeFields fields vs pos ≠ .error .misalignedAccess := by
  induction fields with
  | nil =>
    intro vs pos _ h
    cases vs <;> simp [encodeFields] at h
  | cons f rest ih =>
    intro vs pos hv h
    obtain ⟨name, k⟩ := f
    cases k with
    | bitfield w =>
      simp only [validFieldsAux, Bool.and_eq_true] at hv
      cases vs with
      | nil => simp [encodeFields] at h
      | cons v vs =>
        cases v with
        | bytes bs => simp [encodeFields] at h
        | uint n =>
          simp only [encodeFields] at h
          split at h
          · cases hrec : encodeFields rest vs (pos + w) with
            | ok r => rw [hrec] at h; simp at h
            | error e =>
              rw [hrec] at h
              simp at h
              exact ih vs (pos + w) hv.2 (by rw [hrec, h])
          · simp at h
    | rawBytes m =>
      cases m with
      | fixed n =>
        simp only [validFieldsAux, Bool.and_eq_true, beq_iff_eq] at hv
        cases vs with
        | nil => simp [encodeFields] at h
        | cons v vs =>
          cases v with
          | uint k => simp [encodeFields] at h
          | bytes bs =>
            simp only [encodeFields, align_to_byte_ok hv.1] at h
            have hv2 : validFieldsAux (pos + 8 * bs.length) rest = true := by
              rw [validFieldsAux_mod8 rest (pos + 8 * bs.length) (pos + 8 * n)
                (by omega)]
              exact hv.2
            cases hrec : encodeFields rest vs (pos + 8 * bs.length) with
            | ok r => rw [hrec] at h; simp at h
            | error e =>
              rw [hrec] at h
              simp at h
              exact ih vs (pos + 8 * bs.length) hv2 (by rw [hrec, h])
      | remainder =>
        simp only [validFieldsAux, Bool.and_eq_true, beq_iff_eq] at hv
        have hrest : rest = [] := by
          have := hv.2
          cases rest with
          | nil => rfl
          | cons a l => simp [List.isEmpty] at this
        subst hrest
        cases vs with
        | nil => simp [encodeFields] at h
        | cons v vs =>
          cases v with
          | uint k => simp [encodeFields] at h
          | bytes bs =>
            simp only [encodeFields, align_to_byte_ok hv.1] at h
            cases vs with
            | nil => simp [encodeFields] at h
            | cons v' vs' => simp [encodeFields] at h

/-- On a valid layout, a pointwise-valid value list always encodes, and the
emitted bit stream ends on a byte boundary. -/
theorem encodeFields_ok (fields : List FieldSpec) :
    ∀ (vs : List FieldValue) (pos : Nat), validFieldsAux pos fields = true →
      validValues fields vs = true →
      ∃ bits, encodeFields fields vs pos = .ok bits ∧
        (pos + bits.length) % 8 = 0 := by
  induction fields with
  | nil =>
    intro vs pos hv hvv
    cases vs with
    | nil =>
      refine ⟨[], rfl, ?_⟩
      simpa [validFieldsAux] using hv
    | cons v vs => simp [validValues] at hvv
  | cons f rest ih =>
    intro vs pos hv hvv
    obtain ⟨name, k⟩ := f
    cases vs with
    | nil => cases k <;> simp [validValues] at hvv
    | cons v vs =>
      simp only [validValues, Bool.and_eq_true] at hvv
      obtain ⟨hfit, hvv⟩ := hvv
      cases k with
      | bitfield w =>
        cases v with
        | bytes bs => simp [fitsKind] at hfit
        | uint n =>
          simp only [fitsKind, decide_eq_true_eq] at hfit
          simp only [validFieldsAux, Bool.and_eq_true] at hv
          obtain ⟨bits, hok, hmod⟩ := ih vs (pos + w) hv.2 hvv
          refine ⟨toBits w n ++ bits, ?_, ?_⟩
          · simp only [encodeFields, if_pos hfit, hok]
          · rw [List.length_append, toBits_length]
            omega
      | rawBytes m =>
        cases v with
        | uint n => cases m <;> simp [fitsKind] at hfit
        | bytes bs =>
          cases m with
          | fixed n =>
            simp only [fitsKind, Bool.and_eq_true, beq_iff_eq] at hfit
            simp only [validFieldsAux, Bool.and_eq_true, beq_iff_eq] at hv
            have hv2 : validFieldsAux (pos + 8 * bs.length) rest = true := by
              rw [validFieldsAux_mod8 rest (pos + 8 * bs.length) (pos + 8 * n)
                (by omega)]
              exact hv.2
            obtain ⟨bits, hok, hmod⟩ := ih vs (pos + 8 * bs.length) hv2 hvv
            refine ⟨bytesToBits bs ++ bits, ?_, ?_⟩
            · simp only [encodeFields, align_to_byte_ok hv.1, hok]
            · rw [List.length_append, bytesToBits_length]
              omega
          | remainder =>
            simp only [validFieldsAux, Bool.and_eq_true, beq_iff_eq] at hv
            have hrest : rest = [] := by
              have := hv.2
              cases rest with
              | nil => rfl
              | cons a l => simp [List.isEmpty] at this
            subst hrest
            have hvs : vs = [] := by
              cases vs with
              | nil => rfl
              | cons v' vs' => simp [validValues] at hvv
            subst hvs
            refine ⟨bytesToBits bs ++ [], ?_, ?_⟩
            · simp only [encodeFields, align_to_byte_ok hv.1]
            · rw [List.length_append, bytesToBits_length]
              have hp := hv.1
              simp only [List.length_nil]
              omega

/-- On a valid layout, an input bit stream shorter than the layout's
fixed-size requirement fails with exactly `TruncatedInput`. -/
theorem decodeFields_truncated (fields : List FieldSpec) :
    ∀ (bits : List Bool) (pos : Nat), validFieldsAux pos fields = true →
      bits.length < minBits fields →
      decodeFields fields bits pos = .error .truncatedInput := by
  induction fields with
  | nil =>
    intro bits pos _ hshort
    simp [minBits] at hshort
  | cons f rest ih =>
    intro bits pos hv hshort
    obtain ⟨name, k⟩ := f
    cases k with
    | bitfield w =>
      simp only [validFieldsAux, Bool.and_eq_true] at hv
      simp only [minBits] at hshort
      simp only [decodeFields]
      split
      · have hrec : decodeFields rest (bits.drop w) (pos + w) =
            .error .truncatedInput := by
          apply ih _ _ hv.2
          rw [List.length_drop]
          omega
        rw [hrec]
      · rfl
    | rawBytes m =>
      cases m with
      | fixed n =>
        simp only [validFieldsAux, Bool.and_eq_true, beq_iff_eq] at hv
        simp only [minBits] at hshort
        simp only [decodeFields, align_to_byte_ok hv.1]
        split
        · have hrec : decodeFields rest (bits.drop (8 * n)) (pos + 8 * n) =
              .error .truncatedInput := by
            apply ih _ _ hv.2
            rw [List.length_drop]
            omega
          rw [hrec]
        · rfl
      | remainder =>
        simp only [validFieldsAux, Bool.and_eq_true, beq_iff_eq] at hv
        have hrest : rest = [] := by
          have := hv.2
          cases rest with
          | nil => rfl
          | cons a l => simp [List.isEmpty] at this
        subst hrest
        simp [minBits] at hshort

/-- Round-trip at the walk level: on a valid layout, decoding the bit
stream produced by encoding a pointwise-valid value list yields that value
list back, with no leftover bits. -/
theorem decodeFields_encodeFields (fields : List FieldSpec) :
    ∀ (vs : List FieldValue) (pos : Nat) (bits : List Bool),
      validFieldsAux pos fields = true → validValues fields vs = true →
      encodeFields fields vs pos = .ok bits →
      decodeFields fields bits pos = .ok (vs, [], pos + bits.length) := by
  induction fields with
  | nil =>
    intro vs pos bits _ hvv henc
    cases vs with
    | nil =>
      simp only [encodeFields] at henc
      obtain rfl : ([] : List Bool) = bits := by simpa using henc
      simp [decodeFields]
    | cons v vs => simp [validValues] at hvv
  | cons f rest ih =>
    intro vs pos bits hv hvv henc
    obtain ⟨name, k⟩ := f
    cases vs with
    | nil => cases k <;> simp [validValues] at hvv
    | cons v vs =>
      simp only [validValues, Bool.and_eq_true] at hvv
      obtain ⟨hfit, hvv⟩ := hvv
      cases k with
      | bitfield w =>
        cases v with
        | bytes bs => simp [fitsKind] at hfit
        | uint n =>
          simp only [fitsKind, decide_eq_true_eq] at hfit
          simp only [validFieldsAux, Bool.and_eq_true] at hv
          simp only [encodeFields, if_pos hfit] at henc
          cases hrec : encodeFields rest vs (pos + w) with
          | error e => rw [hrec] at henc; simp at henc
          | ok bs =>
            rw [hrec] at henc
            simp only [Except.ok.injEq] at henc
            subst henc
            have hdec := ih vs (pos + w) bs hv.2 hvv hrec
            have htake : (toBits w n ++ bs).take w = toBits w n :=
              List.take_left' (toBits_length w n)
            have hdrop : (toBits w n ++ bs).drop w = bs :=
              List.drop_left' (toBits_length w n)
            have hwlen : w ≤ (toBits w n ++ bs).length := by
              rw [List.length_append, toBits_length]
              omega
            simp only [decodeFields, if_pos hwlen, hdrop, hdec, htake,
              fromBits_toBits_of_lt hfit]
            simp only [List.length_append, toBits_length]
            rw [Nat.add_assoc]
      | rawBytes m =>
        cases v with
        | uint n => cases m <;> simp [fitsKind] at hfit
        | bytes bsv =>
          cases m with
          | fixed n =>
            simp only [fitsKind, Bool.and_eq_true, beq_iff_eq] at hfit
            simp only [validFieldsAux, Bool.and_eq_true, beq_iff_eq] at hv
            simp only [encodeFields, align_to_byte_ok hv.1] at henc
            cases hrec : encodeFields rest vs (pos + 8 * bsv.length) with
            | error e => rw [hrec] at henc; simp at henc
            | ok bs =>
              rw [hrec] at henc
              simp only [Except.ok.injEq] at henc
              subst henc
              have hv2 : validFieldsAux (pos + 8 * bsv.length) rest = true := by
                rw [validFieldsAux_mod8 rest (pos + 8 * bsv.length)
                  (pos + 8 * n) (by omega)]
                exact hv.2
              have hdec := ih vs (pos + 8 * bsv.length) bs hv2 hvv hrec
              have hblen : (bytesToBits bsv).length = 8 * n := by
                rw [bytesToBits_length, hfit.1]
              have htake : (bytesToBits bsv ++ bs).take (8 * n) =
                  bytesToBits bsv := List.take_left' hblen
              have hdrop : (bytesToBits bsv ++ bs).drop (8 * n) = bs :=
                List.drop_left' hblen
              have hwlen : 8 * n ≤ (bytesToBits bsv ++ bs).length := by
                rw [List.length_append, hblen]
                omega
              have hbytes : bitsToBytes (bytesToBits bsv) = bsv := by
                apply bitsToBytes_bytesToBits
                intro b hb
                have := hfit.2
                rw [List.all_eq_true] at this
                simpa using this b hb
              rw [hfit.1] at hdec
              simp only [decodeFields, align_to_byte_ok hv.1, if_pos hwlen, hdrop, hdec,
                htake, hbytes]
              simp only [List.length_append, hblen]
              rw [Nat.add_assoc]
          | remainder =>
            simp only [fitsKind] at hfit
            simp only [validFieldsAux, Bool.and_eq_true, beq_iff_eq] at hv
            have hrest : rest = [] := by
              have := hv.2
              cases rest with
              | nil => rfl
              | cons a l => simp [List.isEmpty] at this
            subst hrest
            have hvs : vs = [] := by
              cases vs with
              | nil => rfl
              | cons v' vs' => simp [validValues] at hvv
            subst hvs
            simp only [encodeFields, align_to_byte_ok hv.1] at henc
            simp only [Except.ok.injEq] at henc
            obtain rfl : bytesToBits bsv ++ [] = bits := henc
            have hbytes : bitsToBytes (bytesToBits bsv) = bsv := by
              apply bitsToBytes_bytesToBits
              intro b hb
              rw [List.all_eq_true] at hfit
              simpa using hfit b hb
            simp only [decodeFields, align_to_byte_ok hv.1, List.append_nil, hbytes,
              bytesToBits_length]

theorem genVals_length (l : List FieldValue) : (genVals l).length = l.length := by
  simp [genVals]

theorem genVals_getElem? (l : List FieldValue) (i : Nat) :
    (genVals l)[i]? =
      if i < 14 ∧ i < l.length then some (genDefault i) else l[i]? := by
  rcases Nat.lt_or_ge i 14 with h | h
  · interval_cases i <;>
      simp [genVals, genDefault, List.getElem?_set, List.length_set] <;>
      split <;>
      first
      | rfl
      | exact (List.getElem?_eq_none (by omega)).symm
  · have h0 : (0 : Nat) ≠ i := by omega
    have h1 : (1 : Nat) ≠ i := by omega
    have h2 : (2 : Nat) ≠ i := by omega
    have h3 : (3 : Nat) ≠ i := by omega
    have h4 : (4 : Nat) ≠ i := by omega
    have h5 : (5 : Nat) ≠ i := by omega
    have h6 : (6 : Nat) ≠ i := by omega
    have h7 : (7 : Nat) ≠ i := by omega
    have h8 : (8 : Nat) ≠ i := by omega
    have h9 : (9 : Nat) ≠ i := by omega
    have h10 : (10 : Nat) ≠ i := by omega
    have h11 : (11 : Nat) ≠ i := by omega
    have h12 : (12 : Nat) ≠ i := by omega
    have h13 : (13 : Nat) ≠ i := by omega
    rw [genVals, List.getElem?_set_ne h13, List.getElem?_set_ne h12,
      List.getElem?_set_ne h11, List.getElem?_set_ne h10,
      List.getElem?_set_ne h9, List.getElem?_set_ne h8,
      List.getElem?_set_ne h7, List.getElem?_set_ne h6,
      List.getElem?_set_ne h5, List.getElem?_set_ne h4,
      List.getElem?_set_ne h3, List.getElem?_set_ne h2,
      List.getElem?_set_ne h1, List.getElem?_set_ne h0]
    rw [if_neg]
    omega

theorem genVals_idem (l : List FieldValue) : genVals (genVals l) = genVals l := by
  apply List.ext_getElem?
  intro i
  rw [genVals_getElem?, genVals_getElem?, genVals_length]
  split
  · rfl
  · rfl

theorem av1Fields_split :
    av1Fields = av1HeadFields ++ [⟨"configOBUs", .rawBytes .remainder⟩] := rfl

theorem bitsToBytes_length (bs : List Bool) (h : bs.length % 8 = 0) :
    (bitsToBytes bs).length = bs.length / 8 := by
  by_cases hnil : bs = []
  · subst hnil
    simp [bitsToBytes_nil]
  · have hpos : 0 < bs.length := List.length_pos.mpr hnil
    rw [bitsToBytes_cons bs hnil]
    have hrest : (bitsToBytes (bs.drop 8)).length = (bs.drop 8).length / 8 := by
      apply bitsToBytes_length
      rw [List.length_drop]
      omega
    rw [List.length_cons, hrest, List.length_drop]
    omega
termination_by bs.length
decreasing_by
  have hpos : 0 < bs.length := List.length_pos.mpr hnil
  simp only [List.length_drop]
  omega

/-- Decoding commits exactly one value per layout field. -/
theorem decode_ok_invariant {b : Box} {input : List Nat} {b2 : Box} {n : Nat}
    (h : decode b input = .ok (b2, n)) : boxInvariant b2 := by
  unfold decode at h
  cases hdec : decodeFields b.layout (bytesToBits input) 0 with
  | error e => rw [hdec] at h; simp at h
  | ok r =>
    obtain ⟨vs, rest, p2⟩ := r
    rw [hdec] at h
    simp only [Except.ok.injEq, Prod.mk.injEq] at h
    obtain ⟨hb2, _⟩ := h
    subst hb2
    show vs.length = b.layout.length
    exact decodeFields_ok_length hdec

/-- In a valid layout, the bitfield widths accumulated before any raw-bytes
field — whatever else (other raw-bytes fields included) precedes it — end on
a byte boundary: fixed raw-bytes fields advance the position by whole bytes,
and a `Remainder` field followed by anything is already rejected. -/
theorem validFieldsAux_run_aligned (fs1 : List FieldSpec) :
    ∀ (pos : Nat) (name : String) (m : LengthMode) (fs2 : List FieldSpec),
      validFieldsAux pos (fs1 ++ ⟨name, .rawBytes m⟩ :: fs2) = true →
      (pos + sumWidths fs1) % 8 = 0 := by
  induction fs1 with
  | nil =>
    intro pos name m fs2 hv
    rw [List.nil_append] at hv
    cases m <;>
      simp only [validFieldsAux, Bool.and_eq_true, beq_iff_eq] at hv <;>
      simpa [sumWidths, bitfieldWidths] using hv.1
  | cons f fs ih =>
    intro pos name m fs2 hv
    obtain ⟨fname, k⟩ := f
    cases k with
    | bitfield w =>
      rw [List.cons_append] at hv
      simp only [validFieldsAux, Bool.and_eq_true] at hv
      have := ih (pos + w) name m fs2 hv.2
      rw [sumWidths_cons_bitfield]
      omega
    | rawBytes m' =>
      cases m' with
      | fixed n =>
        rw [List.cons_append] at hv
        simp only [validFieldsAux, Bool.and_eq_true, beq_iff_eq] at hv
        have := ih (pos + 8 * n) name m fs2 hv.2
        rw [sumWidths_cons_rawBytes]
        omega
      | remainder =>
        rw [List.cons_append] at hv
        simp only [validFieldsAux, Bool.and_eq_true, beq_iff_eq] at hv
        exact absurd hv.2 (by simp)

/-- C1. `Generate` on a freshly constructed AV1-configuration box sets
marker = 1, version = 1, every other bitfield to 0 and leaves `configOBUs`
empty, and `encode` of that state emits exactly the 4 bytes
`0x81 0x00 0x00 0x00` with no payload bytes. -/
theorem generate_defaults_encode :
    getByName (Generate MP4Av1CAtom) "marker" = .ok (.uint 1) ∧
    getByName (Generate MP4Av1CAtom) "version" = .ok (.uint 1) ∧
    getByName (Generate MP4Av1CAtom) "seq_profile" = .ok (.uint 0) ∧
    getByName (Generate MP4Av1CAtom) "seq_level_idx_0" = .ok (.uint 0) ∧
    getByName (Generate MP4Av1CAtom) "seq_tier_0" = .ok (.uint 0) ∧
    getByName (Generate MP4Av1CAtom) "high_bitdepth" = .ok (.uint 0) ∧
    getByName (Generate MP4Av1CAtom) "twelve_bit" = .ok (.uint 0) ∧
    getByName (Generate MP4Av1CAtom) "monochrome" = .ok (.uint 0) ∧
    getByName (Generate MP4Av1CAtom) "chroma_subsampling_x" = .ok (.uint 0) ∧
    getByName (Generate MP4Av1CAtom) "chroma_subsampling_y" = .ok (.uint 0) ∧
    getByName (Generate MP4Av1CAtom) "chroma_sample_position" = .ok (.uint 0) ∧
    getByName (Generate MP4Av1CAtom) "reserved " = .ok (.uint 0) ∧
    getByName (Generate MP4Av1CAtom) "initial_presentation_delay_present" =
      .ok (.uint 0) ∧
    getByName (Generate MP4Av1CAtom)
      "initial_presentation_delay_minus_one_or_reserved" = .ok (.uint 0) ∧
    getByName (Generate MP4Av1CAtom) "configOBUs" = .ok (.bytes []) ∧
    encode (Generate MP4Av1CAtom) = .ok [0x81, 0x00, 0x00, 0x00] :=
  ⟨rfl, rfl, rfl, rfl, rfl, rfl, rfl, rfl, rfl, rfl, rfl, rfl, rfl, rfl, rfl,
   rfl⟩

/-- C5. The AV1-configuration layout has exactly 14 bitfield fields whose
widths sum to exactly 32 bits, followed by exactly one raw-bytes field with
`Remainder` length named `configOBUs`, which is the last field. -/
theorem av1_layout_shape :
    (av1Fields.filter isBitfield).length = 14 ∧
    (bitfieldWidths av1Fields).sum = 32 ∧
    (av1Fields.filter fun f => !isBitfield f) =
      [⟨"configOBUs", .rawBytes .remainder⟩] ∧
    av1Fields.getLast? = some ⟨"configOBUs", .rawBytes .remainder⟩ ∧
    av1Fields.length = 15 := by
  decide

/-- C9. `Generate` is idempotent on every box instance: each default it
assigns is a constant independent of the prior state. -/
theorem generate_idempotent (b : Box) : Generate (Generate b) = Generate b := by
  simp [Generate, genVals_idem]

/-- C10. The 15 declared field names of the AV1-configuration layout are
pairwise distinct; the field at index 11 is named `"reserved "` with a
trailing space, so by-name access with `"reserved"` fails with
`UnknownField` while `"reserved "` succeeds. -/
theorem reserved_name_lookup :
    (av1Fields.map FieldSpec.name).Nodup ∧
    av1Fields[11]? = some ⟨"reserved ", .bitfield 3⟩ ∧
    getByName MP4Av1CAtom "reserved" = .error .unknownField ∧
    setByName MP4Av1CAtom "reserved" (.uint 0) = .error .unknownField ∧
    getByName MP4Av1CAtom "reserved " = .ok (.uint 0) ∧
    (setByName MP4Av1CAtom "reserved " (.uint 0)).isOk = true :=
  ⟨by decide, rfl, rfl, rfl, rfl, rfl⟩

/-- C2. Round-trip: for every box instance over the AV1-configuration
layout whose values fit each field's declared kind and width (the states
reachable from `generate_defaults` by valid mutation), decoding the bytes
produced by `encode` restores the instance field-by-field, consuming every
emitted byte. -/
theorem decode_encode_roundtrip (b : Box) (hl : b.layout = av1Fields)
    (hv : validValues av1Fields b.values = true) :
    ∃ out, encode b = .ok out ∧ decode b out = .ok (b, out.length) := by
  obtain ⟨tc, ly, vals⟩ := b
  simp only at hl hv
  subst hl
  have hval : validFieldsAux 0 av1Fields = true := by decide
  obtain ⟨bits, henc, hmod⟩ := encodeFields_ok av1Fields vals 0 hval hv
  have hmod8 : bits.length % 8 = 0 := by simpa using hmod
  refine ⟨bitsToBytes bits, ?_, ?_⟩
  · unfold encode
    simp only
    rw [henc]
  · have hdec := decodeFields_encodeFields av1Fields vals 0 bits hval hv henc
    unfold decode
    simp only
    rw [bytesToBits_bitsToBytes bits hmod8, hdec,
      bitsToBytes_length bits hmod8]
    simp

/-- C2 witness: the generated default AV1 box round-trips through its
4-byte encoding. -/
theorem decode_encode_roundtrip_witness :
    decode (Generate MP4Av1CAtom) [0x81, 0x00, 0x00, 0x00] =
      .ok (Generate MP4Av1CAtom, 4) := by
  obtain ⟨out, h1, h2⟩ :=
    decode_encode_roundtrip (Generate MP4Av1CAtom) rfl (by decide)
  have hconc : encode (Generate MP4Av1CAtom) =
      .ok [(0x81 : Nat), 0x00, 0x00, 0x00] := rfl
  rw [hconc] at h1
  obtain rfl : [(0x81 : Nat), 0x00, 0x00, 0x00] = out := by
    simpa using h1
  simpa using h2

/-- C3. For every bitfield width `w` in 1..32, writing `2 ^ w - 1` succeeds
and reads back unchanged, while writing `2 ^ w` — and any other value that
needs more than `w` bits — fails with `OutOfRange` instead of being
truncated. -/
theorem write_bits_width_boundary (w : Nat) (h1 : 1 ≤ w) (h2 : w ≤ 32)
    (st rest : List Bool) :
    write_bits st (2 ^ w - 1) w = .ok (st ++ toBits w (2 ^ w - 1)) ∧
    read_bits (toBits w (2 ^ w - 1) ++ rest) w = .ok (2 ^ w - 1, rest) ∧
    write_bits st (2 ^ w) w = .error .outOfRange ∧
    (∀ v, 2 ^ w ≤ v → write_bits st v w = .error .outOfRange) := by
  have hpow : 0 < 2 ^ w := Nat.two_pow_pos w
  have hlt : 2 ^ w - 1 < 2 ^ w := by omega
  refine ⟨?_, ?_, ?_, ?_⟩
  · unfold write_bits
    rw [if_pos hlt]
  · unfold read_bits
    have hwlen : w ≤ (toBits w (2 ^ w - 1) ++ rest).length := by
      rw [List.length_append, toBits_length]
      omega
    rw [if_pos hwlen, List.take_left' (toBits_length _ _),
      List.drop_left' (toBits_length _ _), fromBits_toBits_of_lt hlt]
  · unfold write_bits
    rw [if_neg (by omega)]
  · intro v hv
    unfold write_bits
    rw [if_neg (by omega)]

/-- C3 witness at width 7. -/
theorem write_bits_width_boundary_witness :
    write_bits [] (2 ^ 7 - 1) 7 = .ok ([] ++ toBits 7 (2 ^ 7 - 1)) ∧
    write_bits [] (2 ^ 7) 7 = .error .outOfRange :=
  ⟨(write_bits_width_boundary 7 (by decide) (by decide) [] []).1,
   (write_bits_width_boundary 7 (by decide) (by decide) [] []).2.2.1⟩

/-- C4. Decoding an input shorter than the layout's fixed-size requirement
fails with `TruncatedInput`, and the box's values are exactly what they
were before the call (all-or-nothing decode). -/
theorem decode_truncated_all_or_nothing (b : Box) (input : List Nat)
    (hv : validLayout b.layout = true)
    (hshort : 8 * input.length < minBits b.layout) :
    decode b input = .error .truncatedInput ∧ decodeInto b input = b := by
  have hbits : (bytesToBits input).length = 8 * input.length :=
    bytesToBits_length input
  have hdec := decodeFields_truncated b.layout (bytesToBits input) 0 hv
    (by omega)
  constructor
  · unfold decode
    rw [hdec]
  · unfold decodeInto decode
    rw [hdec]

/-- C4 witness: a 3-byte input against the 4-byte-minimum AV1 layout. -/
theorem decode_truncated_witness :
    decode MP4Av1CAtom [0, 0, 0] = .error .truncatedInput ∧
    decodeInto MP4Av1CAtom [0, 0, 0] = MP4Av1CAtom :=
  decode_truncated_all_or_nothing MP4Av1CAtom [0, 0, 0] (by decide) (by decide)

/-- C6. Decoding a 6-byte input against the AV1-configuration layout
assigns `configOBUs` exactly the 2 trailing bytes and consumes all 6 bytes;
in general, every successful decode populates one value per layout field and
returns the number of bytes consumed. -/
theorem decode_remainder_consumption (input : List Nat)
    (hlen : input.length = 6) (hb : ∀ x ∈ input, x < 256) :
    (∃ b2, decode MP4Av1CAtom input = .ok (b2, 6) ∧
      getByName b2 "configOBUs" = .ok (.bytes (input.drop 4)) ∧
      b2.values.length = av1Fields.length) ∧
    (∀ (b : Box) (inp : List Nat) (b2 : Box) (n : Nat),
      decode b inp = .ok (b2, n) → b2.values.length = b.layout.length) := by
  have hgen : ∀ (b : Box) (inp : List Nat) (b2 : Box) (n : Nat),
      decode b inp = .ok (b2, n) → b2.values.length = b.layout.length := by
    intro b inp b2 n h
    unfold decode at h
    cases hdec : decodeFields b.layout (bytesToBits inp) 0 with
    | error e => rw [hdec] at h; simp at h
    | ok r =>
      obtain ⟨vs, rest, p2⟩ := r
      rw [hdec] at h
      simp only [Except.ok.injEq, Prod.mk.injEq] at h
      obtain ⟨hb2, _⟩ := h
      subst hb2
      show vs.length = b.layout.length
      exact decodeFields_ok_length hdec
  refine ⟨?_, hgen⟩
  have hbl : (bytesToBits input).length = 48 := by
    rw [bytesToBits_length, hlen]
  have hbf : av1HeadFields.all isBitfield = true := by decide
  have hsw : sumWidths av1HeadFields = 32 := by decide
  have hdrop_len : ((bytesToBits input).drop 32).length = 16 := by
    rw [List.length_drop, hbl]
  have hdrop32 : (bytesToBits input).drop 32 = bytesToBits (input.drop 4) := by
    have hsplit : bytesToBits input =
        bytesToBits (input.take 4) ++ bytesToBits (input.drop 4) := by
      rw [← bytesToBits_append, List.take_append_drop]
    have htklen : (bytesToBits (input.take 4)).length = 32 := by
      rw [bytesToBits_length, List.length_take, hlen]
      omega
    rw [hsplit]
    exact List.drop_left' htklen
  have htail : decodeFields [⟨"configOBUs", .rawBytes .remainder⟩]
      ((bytesToBits input).drop 32) (0 + 32) =
      .ok ([.bytes (bitsToBytes ((bytesToBits input).drop 32))], [], 48) := by
    simp [decodeFields, align_to_byte, hdrop_len]
  obtain ⟨vs1, hvs1, hdec⟩ := decode_bitfields av1HeadFields
    [⟨"configOBUs", .rawBytes .remainder⟩] (bytesToBits input) 0 hbf
    (by rw [hsw, hbl]; omega) _ _ _ (by rw [hsw]; exact htail)
  rw [← av1Fields_split] at hdec
  have hvs1' : vs1.length = 14 := by
    rw [hvs1]
    decide
  have hcfg : bitsToBytes ((bytesToBits input).drop 32) = input.drop 4 := by
    rw [hdrop32]
    exact bitsToBytes_bytesToBits _ (fun x hx => hb x (List.mem_of_mem_drop hx))
  refine ⟨{ MP4Av1CAtom with
      values := vs1 ++ [.bytes (bitsToBytes ((bytesToBits input).drop 32))] },
    ?_, ?_, ?_⟩
  · unfold decode
    simp only [MP4Av1CAtom, mkBox] at hdec ⊢
    rw [hdec]
  · unfold getByName
    have hidx : av1Fields.findIdx? (fun f => f.name == "configOBUs") =
        some 14 := by decide
    simp only [MP4Av1CAtom, mkBox]
    simp only [hidx]
    rw [List.get?_eq_getElem?, List.getElem?_append_right (by omega), hvs1']
    simp [hcfg]
  · rw [List.length_append, hvs1']
    rfl

/-- C6 witness: decoding the concrete 6-byte input
`0x81 0x00 0x00 0x00 0x07 0x09`. -/
theorem decode_remainder_consumption_witness :
    (decode MP4Av1CAtom [0x81, 0x00, 0x00, 0x00, 0x07, 0x09]).map
      (fun p => (p.2, getByName p.1 "configOBUs")) =
      .ok (6, .ok (.bytes [0x07, 0x09])) := by
  obtain ⟨⟨b2, hdec, hcfg, _⟩, _⟩ := decode_remainder_consumption
    [0x81, 0x00, 0x00, 0x00, 0x07, 0x09] rfl (by decide)
  rw [hdec]
  simp only [Except.map]
  rw [hcfg]
  rfl

/-- C7. Every layout in which the bitfield widths preceding some raw-bytes
field — wherever that field sits, other raw-bytes fields before it included —
do not sum to a multiple of 8 is rejected at descriptor construction; on
layouts that pass construction, the `MisalignedAccess` branch of
`align_to_byte` is unreachable throughout decode and encode. -/
theorem alignment_static_misaligned_unreachable :
    (∀ (fs1 fs2 : List FieldSpec) (name : String) (m : LengthMode),
        sumWidths fs1 % 8 ≠ 0 →
        validLayout (fs1 ++ ⟨name, .rawBytes m⟩ :: fs2) = false) ∧
    (∀ (fields : List FieldSpec) (bits : List Bool) (vs : List FieldValue),
        validLayout fields = true →
        decodeFields fields bits 0 ≠ .error .misalignedAccess ∧
        encodeFields fields vs 0 ≠ .error .misalignedAccess) ∧
    (∀ (b : Box) (input : List Nat), validLayout b.layout = true →
        decode b input ≠ .error .misalignedAccess ∧
        encode b ≠ .error .misalignedAccess) := by
  refine ⟨?_, ?_, ?_⟩
  · intro fs1 fs2 name m hmis
    cases hval : validLayout (fs1 ++ ⟨name, .rawBytes m⟩ :: fs2) with
    | false => rfl
    | true =>
      exfalso
      apply hmis
      have := validFieldsAux_run_aligned fs1 0 name m fs2 hval
      omega
  · intro fields bits vs hv
    exact ⟨decodeFields_no_misaligned fields bits 0 hv,
      encodeFields_no_misaligned fields vs 0 hv⟩
  · intro b input hv
    constructor
    · unfold decode
      cases hdec : decodeFields b.layout (bytesToBits input) 0 with
      | ok r => obtain ⟨_, _, _⟩ := r; simp
      | error e =>
        simp only [ne_eq, Except.error.injEq]
        intro he
        subst he
        exact decodeFields_no_misaligned b.layout (bytesToBits input) 0 hv hdec
    · unfold encode
      cases henc : encodeFields b.layout b.values 0 with
      | ok r => simp
      | error e =>
        simp only [ne_eq, Except.error.injEq]
        intro he
        subst he
        exact encodeFields_no_misaligned b.layout b.values 0 hv henc

/-- C7 witness: a 3-bit run before a raw-bytes field is rejected — also when
the misaligned raw-bytes field comes after an earlier, aligned raw-bytes
field — and the valid AV1 layout never reports a misaligned access. -/
theorem alignment_static_witness :
    validLayout [⟨"a", .bitfield 3⟩, ⟨"b", .rawBytes .remainder⟩] = false ∧
    validLayout [⟨"a", .bitfield 8⟩, ⟨"b", .rawBytes (.fixed 1)⟩,
      ⟨"c", .bitfield 3⟩, ⟨"d", .rawBytes .remainder⟩] = false ∧
    decodeFields av1Fields [] 0 ≠ .error .misalignedAccess ∧
    encode MP4Av1CAtom ≠ .error .misalignedAccess :=
  ⟨alignment_static_misaligned_unreachable.1 [⟨"a", .bitfield 3⟩] []
      "b" .remainder (by decide),
   alignment_static_misaligned_unreachable.1
      [⟨"a", .bitfield 8⟩, ⟨"b", .rawBytes (.fixed 1)⟩, ⟨"c", .bitfield 3⟩] []
      "d" .remainder (by decide),
   (alignment_static_misaligned_unreachable.2.1 av1Fields [] [] (by decide)).1,
   (alignment_static_misaligned_unreachable.2.2 MP4Av1CAtom [] (by decide)).2⟩

/-- C8. One value per layout field, always: construction eagerly fills
defaults, and `Generate` (a total operation that never fails), decode
(including a failed, all-or-nothing decode) and set-by-name all preserve
`len(values) = len(layout.fields)`. -/
theorem values_length_invariant :
    (∀ (tc : String) (fields : List FieldSpec), boxInvariant (mkBox tc fields)) ∧
    (∀ b : Box, boxInvariant b → boxInvariant (Generate b)) ∧
    (∀ (b : Box) (input : List Nat) (b2 : Box) (n : Nat),
        decode b input = .ok (b2, n) → boxInvariant b2) ∧
    (∀ (b : Box) (input : List Nat), boxInvariant b →
        boxInvariant (decodeInto b input)) ∧
    (∀ (b : Box) (name : String) (v : FieldValue) (b2 : Box),
        boxInvariant b → setByName b name v = .ok b2 → boxInvariant b2) := by
  refine ⟨?_, ?_, ?_, ?_, ?_⟩
  · intro tc fields
    simp [boxInvariant, mkBox]
  · intro b h
    show (genVals b.values).length = b.layout.length
    rw [genVals_length]
    exact h
  · intro b input b2 n h
    exact decode_ok_invariant h
  · intro b input h
    unfold decodeInto
    cases hdec : decode b input with
    | ok r =>
      obtain ⟨b2, n⟩ := r
      exact decode_ok_invariant hdec
    | error e => exact h
  · intro b name v b2 hinv h
    unfold setByName at h
    split at h
    · exact absurd h (by simp)
    · split at h
      · exact absurd h (by simp)
      · split at h
        · split at h
          · simp only [Except.ok.injEq] at h
            subst h
            simp only [boxInvariant, List.length_set]
            exact hinv
          · exact absurd h (by simp)
        · simp only [Except.ok.injEq] at h
          subst h
          simp only [boxInvariant, List.length_set]
          exact hinv
        · exact absurd h (by simp)

/-- C8 witness: the invariant at concrete boxes. -/
theorem values_length_invariant_witness :
    boxInvariant (Generate MP4Av1CAtom) ∧
    boxInvariant (decodeInto MP4Av1CAtom [0, 0]) :=
  ⟨values_length_invariant.2.1 MP4Av1CAtom rfl,
   values_length_invariant.2.2.2.1 MP4Av1CAtom [0, 0] rfl⟩

end Mp4
